import Mathlib

/-!
Verification development for the lamsa repository.

The repository consists of two Python report scripts
(src/security_analysis.py and src/session_security_test.py) whose only
executable logic is printing hardcoded dictionaries and running two small
illustrative loops.  The specification additionally describes a
token-family rotation and revocation tracker (TokenFamilyTracker) whose
implementation is not present under src/; it is modelled here from the
spec, faithfully following section 4.1 of spec.md.  The report scripts'
own computations (the constant analysis dictionaries and the blacklist
lookup simulation) are embedded directly from the source.
-/

/-- Modelled from the spec: the RefreshToken record of spec.md section 3.
The tracker implementation is missing from src/; all fields follow the
spec's data model.  Timestamps are naturals. -/
structure RefreshToken where
  token_id : Nat
  family_id : Nat
  generation : Nat
  issued_at : Nat
  expires_at : Nat
  revoked : Bool
  revoked_at : Option Nat
deriving DecidableEq, Repr

/-- Modelled from the spec: the TokenFamilyTracker state of spec.md
section 4.1: a primary mapping from token_id to RefreshToken (kept as an
association list keyed by the token_id field) and a secondary mapping
from family_id to the ordered list of its tokens' ids, plus fresh-id
counters for issuing unique token and family identifiers. -/
structure Tracker where
  tokens : List RefreshToken
  families : List (Nat × List Nat)
  nextTokenId : Nat
  nextFamilyId : Nat
deriving DecidableEq, Repr

/-- The empty tracker. -/
def Tracker.init : Tracker := ⟨[], [], 0, 0⟩

/-- Look a token up in the primary mapping by its token_id. -/
def findToken (s : Tracker) (tid : Nat) : Option RefreshToken :=
  s.tokens.find? (fun t => t.token_id == tid)

/-- Look a family's ordered list of token ids up in the secondary mapping. -/
def findFam (s : Tracker) (fid : Nat) : Option (List Nat) :=
  (s.families.find? (fun p => p.1 == fid)).map (fun p => p.2)

/-- Append a token id to a family's entry in the secondary mapping. -/
def addToFamily (fams : List (Nat × List Nat)) (fid tid : Nat) : List (Nat × List Nat) :=
  match fams with
  | [] => [(fid, [tid])]
  | (f, ids) :: rest =>
    if f == fid then (f, ids ++ [tid]) :: rest else (f, ids) :: addToFamily rest fid tid

/-- Modelled from the spec: issue(ttl) of spec.md section 4.1 — creates a
new family (fresh family_id), generation 0, revoked = false,
expires_at = now + ttl, and inserts into both mappings. -/
def issue (s : Tracker) (now ttl : Nat) : RefreshToken × Tracker :=
  let tok : RefreshToken :=
    { token_id := s.nextTokenId, family_id := s.nextFamilyId, generation := 0,
      issued_at := now, expires_at := now + ttl, revoked := false, revoked_at := none }
  (tok,
   { tokens := s.tokens ++ [tok],
     families := s.families ++ [(s.nextFamilyId, [s.nextTokenId])],
     nextTokenId := s.nextTokenId + 1,
     nextFamilyId := s.nextFamilyId + 1 })

/-- Modelled from the spec: marking one token of a family revoked.  Per
the data model (spec.md section 3) revoked_at is set only when revoked
transitions to true, so an already revoked token is left untouched. -/
def revokeTok (now fid : Nat) (t : RefreshToken) : RefreshToken :=
  if t.family_id == fid && !t.revoked then
    { t with revoked := true, revoked_at := some now }
  else t

/-- Modelled from the spec: revoke_family(family_id) of spec.md section
4.1 — marks every token in the family revoked = true with
revoked_at = now; idempotent. -/
def revoke_family (s : Tracker) (now fid : Nat) : Tracker :=
  { s with tokens := s.tokens.map (revokeTok now fid) }

/-- The family's current maximum generation over the tracked tokens. -/
def familyMaxGen (s : Tracker) (fid : Nat) : Nat :=
  (s.tokens.filter (fun t => t.family_id == fid)).foldr (fun t m => max t.generation m) 0

/-- Modelled from the spec: the RotationError variants of spec.md
section 4.1. -/
inductive RotationError where
  | NotFound
  | Expired
  | Reused
  | StaleGeneration
deriving DecidableEq, Repr

/-- Modelled from the spec: marking the presented token consumed on a
successful rotation. -/
def markConsumed (now tid : Nat) (t : RefreshToken) : RefreshToken :=
  if t.token_id == tid then { t with revoked := true, revoked_at := some now } else t

/-- Modelled from the spec: rotate(token_id, ttl) of spec.md section 4.1.
Checks are performed in the spec's listed order: NotFound, Expired,
Reused (which revokes the whole family), StaleGeneration (treated as a
reuse-class attack, same full-family revocation), and otherwise the
success path consumes the presented token and inserts a successor of
generation + 1 into both mappings. -/
def rotate (s : Tracker) (now tid ttl : Nat) :
    Except RotationError RefreshToken × Tracker :=
  match findToken s tid with
  | none => (Except.error RotationError.NotFound, s)
  | some t =>
    if t.expires_at ≤ now then
      (Except.error RotationError.Expired, s)
    else if t.revoked then
      (Except.error RotationError.Reused, revoke_family s now t.family_id)
    else if t.generation < familyMaxGen s t.family_id then
      (Except.error RotationError.StaleGeneration, revoke_family s now t.family_id)
    else
      let newTok : RefreshToken :=
        { token_id := s.nextTokenId, family_id := t.family_id,
          generation := t.generation + 1, issued_at := now,
          expires_at := now + ttl, revoked := false, revoked_at := none }
      (Except.ok newTok,
       { tokens := s.tokens.map (markConsumed now tid) ++ [newTok],
         families := addToFamily s.families t.family_id s.nextTokenId,
         nextTokenId := s.nextTokenId + 1,
         nextFamilyId := s.nextFamilyId })

/-- Modelled from the spec: is_valid(token_id) of spec.md section 4.1 —
true iff the token exists, revoked == false, and expires_at > now. -/
def is_valid (s : Tracker) (now tid : Nat) : Bool :=
  match findToken s tid with
  | some t => !t.revoked && decide (now < t.expires_at)
  | none => false

/-- Modelled from the spec: cleanup(now) of spec.md section 4.1 —
removes every token whose expires_at <= now from both mappings,
regardless of revoked state, and returns the number removed. -/
def cleanup (s : Tracker) (now : Nat) : Nat × Tracker :=
  let removed := s.tokens.filter (fun t => decide (t.expires_at ≤ now))
  let kept := s.tokens.filter (fun t => decide (now < t.expires_at))
  let keptIds := kept.map (fun t => t.token_id)
  (removed.length,
   { tokens := kept,
     families := s.families.map (fun p => (p.1, p.2.filter (fun tid => keptIds.contains tid))),
     nextTokenId := s.nextTokenId,
     nextFamilyId := s.nextFamilyId })

/-- One tracker operation together with the ambient clock value at which
it is invoked. -/
inductive Op where
  | opIssue (now ttl : Nat)
  | opRotate (now tid ttl : Nat)
  | opRevoke (now fid : Nat)
  | opCleanup (now : Nat)
deriving DecidableEq, Repr

/-- The clock value at which an operation is invoked. -/
def opNow : Op → Nat
  | .opIssue n _ => n
  | .opRotate n _ _ => n
  | .opRevoke n _ => n
  | .opCleanup n => n

/-- Apply one operation to the tracker state, discarding the returned
value. -/
def applyOp (s : Tracker) : Op → Tracker
  | .opIssue n ttl => (issue s n ttl).2
  | .opRotate n tid ttl => (rotate s n tid ttl).2
  | .opRevoke n fid => revoke_family s n fid
  | .opCleanup n => (cleanup s n).2

/-- Run a sequence of operations from a starting state. -/
def runOps (s : Tracker) (ops : List Op) : Tracker := ops.foldl applyOp s

/-- A chain of sequential rotations: each step presents the token
returned by the previous step; the run is defined (some) exactly when
every rotate call succeeds. -/
def rotN : Tracker → RefreshToken → List (Nat × Nat) → Option (RefreshToken × Tracker)
  | s, t, [] => some (t, s)
  | s, t, (now, ttl) :: rest =>
    match rotate s now t.token_id ttl with
    | (Except.ok t', s') => rotN s' t' rest
    | (Except.error _, _) => none

/-- A JSON-like value type for embedding the hardcoded Python
dictionaries of src/security_analysis.py. -/
inductive JVal where
  | str (s : String)
  | nat (n : Nat)
  | bool (b : Bool)
  | arr (xs : List JVal)
  | obj (fields : List (String × JVal))

/-- Embeds analyze_jwt_security of src/security_analysis.py (lines
9-52): builds and returns a hardcoded dictionary.  The Python function
takes no arguments; the Unit argument models a call. -/
def analyze_jwt_security (_ : Unit) : JVal :=
  JVal.obj
    [("jwt_secret_analysis", JVal.obj
        [("minimum_length", JVal.nat 32),
         ("recommended_length", JVal.nat 64),
         ("production_requirements", JVal.obj
            [("length", JVal.nat 64),
             ("entropy", JVal.str "high"),
             ("rotation", JVal.str "regular")])]),
     ("token_expiration_analysis", JVal.obj
        [("access_token", JVal.str "7d"),
         ("refresh_token", JVal.str "30d"),
         ("recommended_access", JVal.str "15m"),
         ("recommended_refresh", JVal.str "7d")]),
     ("security_vulnerabilities", JVal.obj
        [("weak_secret_patterns", JVal.arr
            [JVal.str "secret", JVal.str "password", JVal.str "key",
             JVal.str "jwt", JVal.str "token", JVal.str "123456",
             JVal.str "admin", JVal.str "beautycort", JVal.str "test"]),
         ("token_structure", JVal.obj
            [("required_claims", JVal.arr
                [JVal.str "id", JVal.str "type", JVal.str "iat", JVal.str "exp"]),
             ("optional_claims", JVal.arr
                [JVal.str "phone", JVal.str "email", JVal.str "tokenId",
                 JVal.str "tokenFamily"])]),
         ("blacklist_implementation", JVal.obj
            [("storage", JVal.str "in-memory"),
             ("cleanup_interval", JVal.str "1 hour"),
             ("performance_impact", JVal.str "low")])])]

/-- Embeds analyze_refresh_token_security of src/security_analysis.py
(lines 55-75): builds and returns a hardcoded dictionary. -/
def analyze_refresh_token_security (_ : Unit) : JVal :=
  JVal.obj
    [("token_family_tracking", JVal.obj
        [("implemented", JVal.bool true),
         ("security_benefit", JVal.str "Prevents token replay attacks")]),
     ("automatic_revocation", JVal.obj
        [("on_reuse", JVal.bool true),
         ("entire_family", JVal.bool true),
         ("security_benefit", JVal.str "Detects compromised tokens")]),
     ("cleanup_mechanisms", JVal.obj
        [("expired_tokens", JVal.str "automatic"),
         ("interval", JVal.str "4 hours"),
         ("performance_impact", JVal.str "minimal")])]

/-- Embeds analyze_blacklist_security of src/security_analysis.py
(lines 78-99): builds and returns a hardcoded dictionary. -/
def analyze_blacklist_security (_ : Unit) : JVal :=
  JVal.obj
    [("token_hashing", JVal.obj
        [("algorithm", JVal.str "SHA-256"),
         ("prevents_storage", JVal.str "plain tokens"),
         ("security_benefit", JVal.str "Protects token values")]),
     ("storage_mechanism", JVal.obj
        [("current", JVal.str "in-memory"),
         ("recommended", JVal.str "Redis"),
         ("scalability", JVal.str "limited")]),
     ("cleanup_efficiency", JVal.obj
        [("automatic", JVal.bool true),
         ("interval", JVal.str "1 hour"),
         ("memory_management", JVal.str "good")])]

/-- Embeds the token string built in simulate_blacklist_performance of
src/session_security_test.py (line 144). -/
def fakeToken (i : Nat) : String :=
  "fake-jwt-token-" ++ toString i ++ "-" ++ String.mk (List.replicate 100 'x')

/-- Embeds the hashes list of simulate_blacklist_performance (lines
142-146).  The call hashlib.sha256(token.encode()).hexdigest() is a
Python standard-library call external to the repository; it is modelled
by an arbitrary function hexdigest whose documented contract (its result
is a 64-character hex string) is taken as a hypothesis where needed. -/
def blacklistHashes (hexdigest : String → String) (numTokens : Nat) : List String :=
  (List.range numTokens).map (fun i => hexdigest (fakeToken i))

/-- Embeds the lookup key of simulate_blacklist_performance (line 152). -/
def lookupKey (i : Nat) : String := "lookup-token-" ++ toString i

/-- Embeds one membership lookup of simulate_blacklist_performance
(line 152): whether the i-th lookup key occurs in the hashes list. -/
def lookupHit (hexdigest : String → String) (numTokens i : Nat) : Bool :=
  (blacklistHashes hexdigest numTokens).contains (lookupKey i)

/-- revokeTok never changes a token's id. -/
theorem revokeTok_token_id (now fid : Nat) (t : RefreshToken) :
    (revokeTok now fid t).token_id = t.token_id := by
  unfold revokeTok; split <;> rfl

/-- revokeTok never changes a token's family. -/
theorem revokeTok_family_id (now fid : Nat) (t : RefreshToken) :
    (revokeTok now fid t).family_id = t.family_id := by
  unfold revokeTok; split <;> rfl

/-- revokeTok never changes a token's generation. -/
theorem revokeTok_generation (now fid : Nat) (t : RefreshToken) :
    (revokeTok now fid t).generation = t.generation := by
  unfold revokeTok; split <;> rfl

/-- revokeTok never changes a token's issue time. -/
theorem revokeTok_issued_at (now fid : Nat) (t : RefreshToken) :
    (revokeTok now fid t).issued_at = t.issued_at := by
  unfold revokeTok; split <;> rfl

/-- revokeTok never changes a token's expiry. -/
theorem revokeTok_expires_at (now fid : Nat) (t : RefreshToken) :
    (revokeTok now fid t).expires_at = t.expires_at := by
  unfold revokeTok; split <;> rfl

/-- An already revoked token is untouched by revokeTok. -/
theorem revokeTok_of_revoked {t : RefreshToken} (now fid : Nat) (h : t.revoked = true) :
    revokeTok now fid t = t := by
  simp [revokeTok, h]

/-- A token of a different family is untouched by revokeTok. -/
theorem revokeTok_of_ne_family {t : RefreshToken} (now : Nat) {fid : Nat}
    (h : t.family_id ≠ fid) : revokeTok now fid t = t := by
  simp [revokeTok, beq_eq_false_iff_ne.mpr h]

/-- An unrevoked token of the targeted family gets revoked with
revoked_at = now. -/
theorem revokeTok_of_fire {t : RefreshToken} (now : Nat) {fid : Nat}
    (hf : t.family_id = fid) (hr : t.revoked = false) :
    revokeTok now fid t = { t with revoked := true, revoked_at := some now } := by
  simp [revokeTok, hf, hr]

/-- After revokeTok, every token of the targeted family is revoked. -/
theorem revokeTok_revoked_of_family {t : RefreshToken} (now : Nat) {fid : Nat}
    (hf : t.family_id = fid) : (revokeTok now fid t).revoked = true := by
  cases hr : t.revoked with
  | true => rw [revokeTok_of_revoked now fid hr]; exact hr
  | false => rw [revokeTok_of_fire now hf hr]

/-- revokeTok keeps revoked tokens revoked. -/
theorem revokeTok_keeps_revoked {t : RefreshToken} (now fid : Nat) (h : t.revoked = true) :
    (revokeTok now fid t).revoked = true := by
  rw [revokeTok_of_revoked now fid h]; exact h

/-- A token left unrevoked by revokeTok was unrevoked, outside the
targeted family, and untouched. -/
theorem revokeTok_unrevoked {t : RefreshToken} {now fid : Nat}
    (h : (revokeTok now fid t).revoked = false) :
    revokeTok now fid t = t ∧ t.revoked = false ∧ t.family_id ≠ fid := by
  by_cases hf : t.family_id = fid
  · exact absurd h (by rw [revokeTok_revoked_of_family now hf]; simp)
  · refine ⟨revokeTok_of_ne_family now hf, ?_, hf⟩
    rw [revokeTok_of_ne_family now hf] at h; exact h

/-- revokeTok is idempotent, for any pair of revocation times. -/
theorem revokeTok_idem (n1 n2 fid : Nat) (t : RefreshToken) :
    revokeTok n2 fid (revokeTok n1 fid t) = revokeTok n1 fid t := by
  by_cases hf : t.family_id = fid
  · cases hr : t.revoked with
    | true =>
      rw [revokeTok_of_revoked n1 fid hr, revokeTok_of_revoked n2 fid hr]
    | false =>
      rw [revokeTok_of_fire n1 hf hr]
      exact revokeTok_of_revoked n2 fid rfl
  · rw [revokeTok_of_ne_family n1 hf, revokeTok_of_ne_family n2 hf]

/-- markConsumed never changes a token's id. -/
theorem markConsumed_token_id (now tid : Nat) (t : RefreshToken) :
    (markConsumed now tid t).token_id = t.token_id := by
  unfold markConsumed; split <;> rfl

/-- markConsumed never changes a token's family. -/
theorem markConsumed_family_id (now tid : Nat) (t : RefreshToken) :
    (markConsumed now tid t).family_id = t.family_id := by
  unfold markConsumed; split <;> rfl

/-- markConsumed never changes a token's generation. -/
theorem markConsumed_generation (now tid : Nat) (t : RefreshToken) :
    (markConsumed now tid t).generation = t.generation := by
  unfold markConsumed; split <;> rfl

/-- markConsumed never changes a token's issue time. -/
theorem markConsumed_issued_at (now tid : Nat) (t : RefreshToken) :
    (markConsumed now tid t).issued_at = t.issued_at := by
  unfold markConsumed; split <;> rfl

/-- A token with a different id is untouched by markConsumed. -/
theorem markConsumed_of_ne {t : RefreshToken} (now : Nat) {tid : Nat}
    (h : t.token_id ≠ tid) : markConsumed now tid t = t := by
  simp [markConsumed, beq_eq_false_iff_ne.mpr h]

/-- The presented token is marked revoked with revoked_at = now. -/
theorem markConsumed_of_eq {t : RefreshToken} (now : Nat) {tid : Nat}
    (h : t.token_id = tid) :
    markConsumed now tid t = { t with revoked := true, revoked_at := some now } := by
  simp [markConsumed, h]

/-- markConsumed keeps revoked tokens revoked. -/
theorem markConsumed_keeps_revoked {t : RefreshToken} (now tid : Nat)
    (h : t.revoked = true) : (markConsumed now tid t).revoked = true := by
  by_cases he : t.token_id = tid
  · rw [markConsumed_of_eq now he]
  · rw [markConsumed_of_ne now he]; exact h

/-- Mapping revokeTok over a token list leaves the id list unchanged. -/
theorem ids_map_revokeTok (now fid : Nat) (l : List RefreshToken) :
    (l.map (revokeTok now fid)).map (fun u => u.token_id) =
      l.map (fun u => u.token_id) := by
  rw [List.map_map]
  apply List.map_congr_left
  intro a _
  simp [Function.comp, revokeTok_token_id]

/-- Mapping markConsumed over a token list leaves the id list unchanged. -/
theorem ids_map_markConsumed (now tid : Nat) (l : List RefreshToken) :
    (l.map (markConsumed now tid)).map (fun u => u.token_id) =
      l.map (fun u => u.token_id) := by
  rw [List.map_map]
  apply List.map_congr_left
  intro a _
  simp [Function.comp, markConsumed_token_id]

/-- Appending one fresh id strictly above every existing id preserves
distinctness of the id list. -/
theorem nodup_ids_append_fresh {ids : List Nat} {n : Nat}
    (h : ∀ a ∈ ids, a < n) (hnd : ids.Nodup) : (ids ++ [n]).Nodup := by
  refine List.Nodup.append hnd (List.nodup_singleton n) ?_
  intro a ha hb
  have : a = n := by simpa using hb
  subst this
  exact absurd (h _ ha) (lt_irrefl _)

/-- With distinct ids, looking a member token up by its own id finds
exactly that token. -/
theorem find?_by_id_of_nodup {l : List RefreshToken} {t : RefreshToken}
    (hnd : (l.map (fun u => u.token_id)).Nodup) (ht : t ∈ l) :
    l.find? (fun u => u.token_id == t.token_id) = some t := by
  induction l with
  | nil => cases ht
  | cons h tl ih =>
    rw [List.map_cons, List.nodup_cons] at hnd
    rcases List.mem_cons.mp ht with rfl | htl
    · exact List.find?_cons_of_pos tl (by simp)
    · by_cases hb : (h.token_id == t.token_id) = true
      · exfalso
        have heq : h.token_id = t.token_id := beq_iff_eq.mp hb
        exact hnd.1 (heq ▸ List.mem_map.mpr ⟨t, htl, rfl⟩)
      · rw [List.find?_cons_of_neg tl hb]
        exact ih hnd.2 htl

/-- findToken version of find by own id under distinct ids. -/
theorem findToken_eq {s : Tracker} {t : RefreshToken}
    (hnd : (s.tokens.map (fun u => u.token_id)).Nodup) (ht : t ∈ s.tokens) :
    findToken s t.token_id = some t :=
  find?_by_id_of_nodup hnd ht

/-- find? skips a front segment on which the predicate is false. -/
theorem find?_append_right {α : Type} (p : α → Bool) (l1 l2 : List α)
    (h : ∀ a ∈ l1, p a = false) : (l1 ++ l2).find? p = l2.find? p := by
  induction l1 with
  | nil => rfl
  | cons x xs ih =>
    rw [List.cons_append, List.find?_cons_of_neg _ (by simp [h x (by simp)])]
    exact ih (fun a ha => h a (by simp [ha]))

/-- The generation fold is bounded by any bound on the members. -/
theorem foldr_max_le {l : List RefreshToken} {m : Nat}
    (h : ∀ x ∈ l, x.generation ≤ m) :
    l.foldr (fun t a => max t.generation a) 0 ≤ m := by
  induction l with
  | nil => exact Nat.zero_le m
  | cons x xs ih =>
    exact Nat.max_le.mpr ⟨h x (by simp), ih (fun a ha => h a (by simp [ha]))⟩

/-- Every member's generation is below the generation fold. -/
theorem le_foldr_max {l : List RefreshToken} {x : RefreshToken} (hx : x ∈ l) :
    x.generation ≤ l.foldr (fun t a => max t.generation a) 0 := by
  induction l with
  | nil => cases hx
  | cons y ys ih =>
    rcases List.mem_cons.mp hx with rfl | hys
    · exact Nat.le_max_left _ _
    · exact le_trans (ih hys) (Nat.le_max_right _ _)

/-- If a family member dominates every member's generation, the family
maximum generation is its generation. -/
theorem familyMaxGen_eq {s : Tracker} {t : RefreshToken} (ht : t ∈ s.tokens)
    (hmax : ∀ u ∈ s.tokens, u.family_id = t.family_id → u.generation ≤ t.generation) :
    familyMaxGen s t.family_id = t.generation := by
  unfold familyMaxGen
  apply Nat.le_antisymm
  · apply foldr_max_le
    intro x hx
    have hx' := List.mem_filter.mp hx
    exact hmax x hx'.1 (beq_iff_eq.mp hx'.2)
  · exact le_foldr_max (List.mem_filter.mpr ⟨ht, by simp⟩)

/-- Every family member's generation is at most the family maximum. -/
theorem le_familyMaxGen {s : Tracker} {u : RefreshToken} (hu : u ∈ s.tokens)
    {fid : Nat} (hf : u.family_id = fid) :
    u.generation ≤ familyMaxGen s fid := by
  unfold familyMaxGen
  exact le_foldr_max (List.mem_filter.mpr ⟨hu, by simp [hf]⟩)

/-- The issued token of issue, spelled out. -/
theorem issue_fst (s : Tracker) (now ttl : Nat) :
    (issue s now ttl).1 =
      { token_id := s.nextTokenId, family_id := s.nextFamilyId, generation := 0,
        issued_at := now, expires_at := now + ttl, revoked := false,
        revoked_at := none } := rfl

/-- The post-state of issue, spelled out. -/
theorem issue_snd (s : Tracker) (now ttl : Nat) :
    (issue s now ttl).2 =
      { tokens := s.tokens ++ [(issue s now ttl).1],
        families := s.families ++ [(s.nextFamilyId, [s.nextTokenId])],
        nextTokenId := s.nextTokenId + 1,
        nextFamilyId := s.nextFamilyId + 1 } := rfl

/-- The token list after revoke_family. -/
theorem revoke_family_tokens (s : Tracker) (now fid : Nat) :
    (revoke_family s now fid).tokens = s.tokens.map (revokeTok now fid) := rfl

/-- revoke_family leaves the secondary mapping unchanged. -/
theorem revoke_family_families (s : Tracker) (now fid : Nat) :
    (revoke_family s now fid).families = s.families := rfl

/-- The removal count of cleanup, spelled out. -/
theorem cleanup_fst (s : Tracker) (now : Nat) :
    (cleanup s now).1 = (s.tokens.filter (fun t => decide (t.expires_at ≤ now))).length := rfl

/-- The token list after cleanup, spelled out. -/
theorem cleanup_snd_tokens (s : Tracker) (now : Nat) :
    (cleanup s now).2.tokens = s.tokens.filter (fun t => decide (now < t.expires_at)) := rfl

/-- The secondary mapping after cleanup, spelled out. -/
theorem cleanup_snd_families (s : Tracker) (now : Nat) :
    (cleanup s now).2.families =
      s.families.map (fun p => (p.1, p.2.filter (fun tid =>
        ((s.tokens.filter (fun t => decide (now < t.expires_at))).map
          (fun t => t.token_id)).contains tid))) := rfl

/-- rotate on an unknown id fails with NotFound and leaves the state
unchanged. -/
theorem rotate_eq_notFound {s : Tracker} {now tid ttl : Nat}
    (h : findToken s tid = none) :
    rotate s now tid ttl = (Except.error RotationError.NotFound, s) := by
  simp [rotate, h]

/-- rotate on an expired token fails with Expired and leaves the state
unchanged. -/
theorem rotate_eq_expired {s : Tracker} {now tid ttl : Nat} {t : RefreshToken}
    (h : findToken s tid = some t) (hx : t.expires_at ≤ now) :
    rotate s now tid ttl = (Except.error RotationError.Expired, s) := by
  simp [rotate, h, hx]

/-- rotate on an unexpired revoked token fails with Reused and revokes
the whole family. -/
theorem rotate_eq_reused {s : Tracker} {now tid ttl : Nat} {t : RefreshToken}
    (h : findToken s tid = some t) (hx : ¬ t.expires_at ≤ now) (hr : t.revoked = true) :
    rotate s now tid ttl =
      (Except.error RotationError.Reused, revoke_family s now t.family_id) := by
  simp [rotate, h, hx, hr]

/-- rotate on an unexpired unrevoked token below the family maximum
generation fails with StaleGeneration and revokes the whole family. -/
theorem rotate_eq_stale {s : Tracker} {now tid ttl : Nat} {t : RefreshToken}
    (h : findToken s tid = some t) (hx : ¬ t.expires_at ≤ now) (hr : t.revoked = false)
    (hg : t.generation < familyMaxGen s t.family_id) :
    rotate s now tid ttl =
      (Except.error RotationError.StaleGeneration, revoke_family s now t.family_id) := by
  simp [rotate, h, hx, hr, hg]

/-- rotate on the active token succeeds: the presented token is
consumed and a generation + 1 successor is inserted into both mappings. -/
theorem rotate_eq_ok {s : Tracker} {now tid ttl : Nat} {t : RefreshToken}
    (h : findToken s tid = some t) (hx : ¬ t.expires_at ≤ now) (hr : t.revoked = false)
    (hg : ¬ t.generation < familyMaxGen s t.family_id) :
    rotate s now tid ttl =
      (Except.ok
        { token_id := s.nextTokenId, family_id := t.family_id,
          generation := t.generation + 1, issued_at := now,
          expires_at := now + ttl, revoked := false, revoked_at := none },
       { tokens := s.tokens.map (markConsumed now tid) ++
           [{ token_id := s.nextTokenId, family_id := t.family_id,
              generation := t.generation + 1, issued_at := now,
              expires_at := now + ttl, revoked := false, revoked_at := none }],
         families := addToFamily s.families t.family_id s.nextTokenId,
         nextTokenId := s.nextTokenId + 1,
         nextFamilyId := s.nextFamilyId }) := by
  simp [rotate, h, hx, hr, hg]

/-- The state invariant maintained by the tracker, relative to a bound T
on the clock values used so far: token ids are distinct and below the
fresh-id counter, family ids are below the fresh-family counter, all
recorded times are at most T, and every unrevoked token strictly
dominates its family — every other token of its family is revoked, of
lower generation, and was revoked no later than the active token was
issued. -/
structure TrackerInv (s : Tracker) (T : Nat) : Prop where
  nodup : (s.tokens.map (fun u => u.token_id)).Nodup
  ids_lt : ∀ t ∈ s.tokens, t.token_id < s.nextTokenId
  fam_lt : ∀ t ∈ s.tokens, t.family_id < s.nextFamilyId
  issued_le : ∀ t ∈ s.tokens, t.issued_at ≤ T
  revat_le : ∀ t ∈ s.tokens, ∀ r, t.revoked_at = some r → r ≤ T
  active_dom : ∀ t ∈ s.tokens, t.revoked = false →
    ∀ u ∈ s.tokens, u.family_id = t.family_id → u.token_id ≠ t.token_id →
      u.revoked = true ∧ u.generation < t.generation ∧
      ∃ r, u.revoked_at = some r ∧ r ≤ t.issued_at

/-- The invariant is monotone in the time bound. -/
theorem TrackerInv.mono {s : Tracker} {T T' : Nat} (h : TrackerInv s T) (hT : T ≤ T') : TrackerInv s T' :=
  ⟨h.nodup, h.ids_lt, h.fam_lt,
   fun t ht => le_trans (h.issued_le t ht) hT,
   fun t ht r hr => le_trans (h.revat_le t ht r hr) hT,
   h.active_dom⟩

/-- The empty tracker satisfies the invariant. -/
theorem inv_init : TrackerInv Tracker.init 0 := by
  refine ⟨?_, ?_, ?_, ?_, ?_, ?_⟩ <;> simp [Tracker.init]

/-- issue preserves the invariant. -/
theorem inv_issue {s : Tracker} {T now ttl : Nat} (h : TrackerInv s T) (hT : T ≤ now) :
    TrackerInv (issue s now ttl).2 now := by
  refine ⟨?_, ?_, ?_, ?_, ?_, ?_⟩
  · rw [issue_snd]
    show ((s.tokens ++ [(issue s now ttl).1]).map (fun u => u.token_id)).Nodup
    rw [List.map_append, issue_fst]
    exact nodup_ids_append_fresh
      (fun a ha => by
        obtain ⟨u, hu, rfl⟩ := List.mem_map.mp ha
        exact h.ids_lt u hu)
      h.nodup
  · intro t ht
    rw [issue_snd] at ht ⊢
    rcases List.mem_append.mp ht with ht' | ht'
    · exact lt_trans (h.ids_lt t ht') (Nat.lt_succ_self _)
    · have : t = (issue s now ttl).1 := by simpa using ht'
      subst this
      rw [issue_fst]
      exact Nat.lt_succ_self _
  · intro t ht
    rw [issue_snd] at ht ⊢
    rcases List.mem_append.mp ht with ht' | ht'
    · exact lt_trans (h.fam_lt t ht') (Nat.lt_succ_self _)
    · have : t = (issue s now ttl).1 := by simpa using ht'
      subst this
      rw [issue_fst]
      exact Nat.lt_succ_self _
  · intro t ht
    rw [issue_snd] at ht
    rcases List.mem_append.mp ht with ht' | ht'
    · exact le_trans (h.issued_le t ht') hT
    · have : t = (issue s now ttl).1 := by simpa using ht'
      subst this
      rw [issue_fst]
  · intro t ht r hr
    rw [issue_snd] at ht
    rcases List.mem_append.mp ht with ht' | ht'
    · exact le_trans (h.revat_le t ht' r hr) hT
    · have : t = (issue s now ttl).1 := by simpa using ht'
      subst this
      rw [issue_fst] at hr
      cases hr
  · intro t ht hrev u hu hfam hid
    rw [issue_snd] at ht hu
    rcases List.mem_append.mp hu with hu' | hu'
    · rcases List.mem_append.mp ht with ht' | ht'
      · exact h.active_dom t ht' hrev u hu' hfam hid
      · -- t is the fresh token: its family is fresh, no old token shares it
        have : t = (issue s now ttl).1 := by simpa using ht'
        subst this
        rw [issue_fst] at hfam
        exact absurd hfam (Nat.ne_of_lt (h.fam_lt u hu'))
    · -- u is the fresh token
      have hu'' : u = (issue s now ttl).1 := by simpa using hu'
      subst hu''
      rcases List.mem_append.mp ht with ht' | ht'
      · rw [issue_fst] at hfam
        exact absurd hfam (Nat.ne_of_lt' (h.fam_lt t ht'))
      · have : t = (issue s now ttl).1 := by simpa using ht'
        subst this
        exact absurd rfl hid

/-- revoke_family preserves the invariant. -/
theorem inv_revoke {s : Tracker} {T now fid : Nat} (h : TrackerInv s T) (hT : T ≤ now) :
    TrackerInv (revoke_family s now fid) now := by
  refine ⟨?_, ?_, ?_, ?_, ?_, ?_⟩
  · rw [revoke_family_tokens, ids_map_revokeTok]
    exact h.nodup
  · intro t ht
    rw [revoke_family_tokens] at ht
    obtain ⟨u, hu, rfl⟩ := List.mem_map.mp ht
    rw [revokeTok_token_id]
    exact h.ids_lt u hu
  · intro t ht
    rw [revoke_family_tokens] at ht
    obtain ⟨u, hu, rfl⟩ := List.mem_map.mp ht
    rw [revokeTok_family_id]
    exact h.fam_lt u hu
  · intro t ht
    rw [revoke_family_tokens] at ht
    obtain ⟨u, hu, rfl⟩ := List.mem_map.mp ht
    rw [revokeTok_issued_at]
    exact le_trans (h.issued_le u hu) hT
  · intro t ht r hr
    rw [revoke_family_tokens] at ht
    obtain ⟨u, hu, rfl⟩ := List.mem_map.mp ht
    by_cases hf : u.family_id = fid
    · cases hrv : u.revoked with
      | false =>
        rw [revokeTok_of_fire now hf hrv] at hr
        have : now = r := by simpa using hr
        omega
      | true =>
        rw [revokeTok_of_revoked now fid hrv] at hr
        exact le_trans (h.revat_le u hu r hr) hT
    · rw [revokeTok_of_ne_family now hf] at hr
      exact le_trans (h.revat_le u hu r hr) hT
  · intro t ht hrev u hu hfam hid
    rw [revoke_family_tokens] at ht hu
    obtain ⟨t0, ht0, rfl⟩ := List.mem_map.mp ht
    obtain ⟨u0, hu0, rfl⟩ := List.mem_map.mp hu
    obtain ⟨heq, ht0rev, ht0fam⟩ := revokeTok_unrevoked hrev
    rw [revokeTok_family_id, revokeTok_family_id] at hfam
    rw [revokeTok_token_id, revokeTok_token_id] at hid
    have hu0fam : u0.family_id ≠ fid := by rw [hfam]; exact ht0fam
    rw [revokeTok_of_ne_family now hu0fam, heq]
    exact h.active_dom t0 ht0 ht0rev u0 hu0 hfam hid

/-- cleanup preserves the invariant. -/
theorem inv_cleanup {s : Tracker} {T now : Nat} (h : TrackerInv s T) (hT : T ≤ now) :
    TrackerInv (cleanup s now).2 now := by
  have hsub : (cleanup s now).2.tokens.Sublist s.tokens := by
    rw [cleanup_snd_tokens]; exact List.filter_sublist s.tokens
  have hmem : ∀ t ∈ (cleanup s now).2.tokens, t ∈ s.tokens :=
    fun t ht => hsub.mem ht
  refine ⟨?_, ?_, ?_, ?_, ?_, ?_⟩
  · exact List.Nodup.sublist (List.Sublist.map _ hsub) h.nodup
  · intro t ht; exact h.ids_lt t (hmem t ht)
  · intro t ht; exact h.fam_lt t (hmem t ht)
  · intro t ht; exact le_trans (h.issued_le t (hmem t ht)) hT
  · intro t ht r hr; exact le_trans (h.revat_le t (hmem t ht) r hr) hT
  · intro t ht hrev u hu hfam hid
    exact h.active_dom t (hmem t ht) hrev u (hmem u hu) hfam hid

/-- A found token is a member of the token list. -/
theorem findToken_mem {s : Tracker} {tid : Nat} {t : RefreshToken}
    (h : findToken s tid = some t) : t ∈ s.tokens := by
  unfold findToken at h
  exact List.mem_of_find?_eq_some h

/-- A found token carries the looked-up id. -/
theorem findToken_id {s : Tracker} {tid : Nat} {t : RefreshToken}
    (h : findToken s tid = some t) : t.token_id = tid := by
  unfold findToken at h
  have hp := List.find?_some h
  simp only [beq_iff_eq] at hp
  exact hp

/-- rotate preserves the invariant. -/
theorem inv_rotate {s : Tracker} {T now tid ttl : Nat} (h : TrackerInv s T) (hT : T ≤ now) :
    TrackerInv (rotate s now tid ttl).2 now := by
  cases hfind : findToken s tid with
  | none =>
    rw [rotate_eq_notFound hfind]
    exact h.mono hT
  | some t =>
    have ht : t ∈ s.tokens := findToken_mem hfind
    have htid : t.token_id = tid := findToken_id hfind
    by_cases hx : t.expires_at ≤ now
    · rw [rotate_eq_expired hfind hx]
      exact h.mono hT
    · cases hr : t.revoked with
      | true =>
        rw [rotate_eq_reused hfind hx hr]
        exact inv_revoke h hT
      | false =>
        by_cases hg : t.generation < familyMaxGen s t.family_id
        · rw [rotate_eq_stale hfind hx hr hg]
          exact inv_revoke h hT
        · rw [rotate_eq_ok hfind hx hr hg]
          have hinj := List.inj_on_of_nodup_map h.nodup
          have hid_t : ∀ u0 ∈ s.tokens, u0.token_id = tid → u0 = t := by
            intro u0 hu0 hu0id
            exact hinj hu0 ht (by rw [hu0id, htid])
          refine ⟨?_, ?_, ?_, ?_, ?_, ?_⟩ <;> dsimp only
          · rw [List.map_append, ids_map_markConsumed]
            exact nodup_ids_append_fresh
              (fun a ha => by
                obtain ⟨u, hu, rfl⟩ := List.mem_map.mp ha
                exact h.ids_lt u hu)
              h.nodup
          · intro t' ht'
            rcases List.mem_append.mp ht' with htL | htR
            · obtain ⟨u0, hu0, rfl⟩ := List.mem_map.mp htL
              rw [markConsumed_token_id]
              exact lt_trans (h.ids_lt u0 hu0) (Nat.lt_succ_self _)
            · rw [List.mem_singleton] at htR
              subst htR
              exact Nat.lt_succ_self _
          · intro t' ht'
            rcases List.mem_append.mp ht' with htL | htR
            · obtain ⟨u0, hu0, rfl⟩ := List.mem_map.mp htL
              rw [markConsumed_family_id]
              exact h.fam_lt u0 hu0
            · rw [List.mem_singleton] at htR
              subst htR
              exact h.fam_lt t ht
          · intro t' ht'
            rcases List.mem_append.mp ht' with htL | htR
            · obtain ⟨u0, hu0, rfl⟩ := List.mem_map.mp htL
              rw [markConsumed_issued_at]
              exact le_trans (h.issued_le u0 hu0) hT
            · rw [List.mem_singleton] at htR
              subst htR
              exact le_refl now
          · intro t' ht' r hra
            rcases List.mem_append.mp ht' with htL | htR
            · obtain ⟨u0, hu0, rfl⟩ := List.mem_map.mp htL
              by_cases he : u0.token_id = tid
              · rw [markConsumed_of_eq now he] at hra
                have : now = r := by simpa using hra
                omega
              · rw [markConsumed_of_ne now he] at hra
                exact le_trans (h.revat_le u0 hu0 r hra) hT
            · rw [List.mem_singleton] at htR
              subst htR
              cases hra
          · intro t' ht' hrev' u' hu' hfam' hid'
            rcases List.mem_append.mp ht' with htL | htR
            · -- the unrevoked token comes from the marked old list
              obtain ⟨u0, hu0, rfl⟩ := List.mem_map.mp htL
              have hu0ne : u0.token_id ≠ tid := by
                intro he
                rw [markConsumed_of_eq now he] at hrev'
                cases hrev'
              rw [markConsumed_of_ne now hu0ne] at hrev' hfam' hid' ⊢
              have hu0fam : u0.family_id ≠ t.family_id := by
                intro he
                have htne : t.token_id ≠ u0.token_id := by
                  intro hh
                  exact hu0ne (by rw [← hh, htid])
                have := (h.active_dom u0 hu0 hrev' t ht he.symm htne).1
                rw [hr] at this
                cases this
              rcases List.mem_append.mp hu' with huL | huR
              · obtain ⟨w0, hw0, rfl⟩ := List.mem_map.mp huL
                by_cases hw : w0.token_id = tid
                · exfalso
                  have hw0t : w0 = t := hid_t w0 hw0 hw
                  subst hw0t
                  rw [markConsumed_family_id] at hfam'
                  exact hu0fam hfam'.symm
                · rw [markConsumed_of_ne now hw] at hfam' hid' ⊢
                  exact h.active_dom u0 hu0 hrev' w0 hw0 hfam' hid'
              · exfalso
                rw [List.mem_singleton] at huR
                subst huR
                dsimp only at hfam'
                exact hu0fam hfam'.symm
            · -- the unrevoked token is the fresh successor
              rw [List.mem_singleton] at htR
              subst htR
              dsimp only at hfam' hid' ⊢
              rcases List.mem_append.mp hu' with huL | huR
              · obtain ⟨w0, hw0, rfl⟩ := List.mem_map.mp huL
                by_cases hw : w0.token_id = tid
                · have hw0t : w0 = t := hid_t w0 hw0 hw
                  subst hw0t
                  rw [markConsumed_of_eq now hw]
                  exact ⟨rfl, Nat.lt_succ_self _, now, rfl, le_refl now⟩
                · rw [markConsumed_of_ne now hw] at hfam' ⊢
                  have hwid : w0.token_id ≠ t.token_id := by
                    intro hh
                    exact hw (by rw [hh, htid])
                  obtain ⟨hrv, hgen, r, hraa, hrbb⟩ :=
                    h.active_dom t ht hr w0 hw0 hfam' hwid
                  exact ⟨hrv, lt_trans hgen (Nat.lt_succ_self _), r, hraa,
                    le_trans hrbb (le_trans (h.issued_le t ht) hT)⟩
              · exfalso
                rw [List.mem_singleton] at huR
                subst huR
                exact hid' rfl

/-- Any single operation invoked at or after the current time bound
preserves the invariant. -/
theorem inv_applyOp {s : Tracker} {T : Nat} (op : Op) (h : TrackerInv s T)
    (hT : T ≤ opNow op) : TrackerInv (applyOp s op) (opNow op) := by
  cases op with
  | opIssue n ttl => exact inv_issue h hT
  | opRotate n tid ttl => exact inv_rotate h hT
  | opRevoke n fid => exact inv_revoke h hT
  | opCleanup n => exact inv_cleanup h hT

/-- Running any clock-monotone operation sequence from an invariant
state lands in an invariant state. -/
theorem inv_runOps (ops : List Op) : ∀ (s : Tracker) (T : Nat), TrackerInv s T →
    List.Chain' (fun a b => a ≤ b) (T :: ops.map opNow) →
    ∃ T', TrackerInv (runOps s ops) T' := by
  induction ops with
  | nil =>
    intro s T h _
    exact ⟨T, h⟩
  | cons op rest ih =>
    intro s T h hch
    rw [List.map_cons, List.chain'_cons] at hch
    have hstep := inv_applyOp op h hch.1
    have hrw : runOps s (op :: rest) = runOps (applyOp s op) rest := rfl
    rw [hrw]
    exact ih (applyOp s op) (opNow op) hstep hch.2

/-- Claim C2: in every tracker state reachable from the empty tracker by
a sequence of issue, rotate, revoke_family and cleanup operations under
a non-decreasing clock, each token family contains at most one token
with revoked = false, that token's generation equals the family's
maximum generation, and every other token of the family is revoked, of
strictly lower generation, with revoked_at at or before the active
token's issued_at. -/
theorem claim_c2_family_invariant (ops : List Op)
    (hmono : List.Chain' (fun a b => a ≤ b) (ops.map opNow)) :
    (∀ t ∈ (runOps Tracker.init ops).tokens, ∀ u ∈ (runOps Tracker.init ops).tokens,
        u.family_id = t.family_id → t.revoked = false → u.revoked = false → u = t) ∧
    (∀ t ∈ (runOps Tracker.init ops).tokens, t.revoked = false →
        t.generation = familyMaxGen (runOps Tracker.init ops) t.family_id) ∧
    (∀ t ∈ (runOps Tracker.init ops).tokens, t.revoked = false →
        ∀ u ∈ (runOps Tracker.init ops).tokens, u.family_id = t.family_id →
          u.token_id ≠ t.token_id →
          u.revoked = true ∧ u.generation < t.generation ∧
          ∃ r, u.revoked_at = some r ∧ r ≤ t.issued_at) := by
  have hch : List.Chain' (fun a b => a ≤ b) (0 :: ops.map opNow) := by
    rw [List.chain'_cons']
    exact ⟨fun y _ => Nat.zero_le y, hmono⟩
  obtain ⟨T', hI⟩ := inv_runOps ops Tracker.init 0 inv_init hch
  refine ⟨?_, ?_, ?_⟩
  · intro t ht u hu hfam htr hur
    by_cases hid : u.token_id = t.token_id
    · exact List.inj_on_of_nodup_map hI.nodup hu ht hid
    · have hc := (hI.active_dom t ht htr u hu hfam hid).1
      rw [hur] at hc
      cases hc
  · intro t ht htr
    refine (familyMaxGen_eq ht ?_).symm
    intro u hu hfam
    by_cases hid : u.token_id = t.token_id
    · have he : u = t := List.inj_on_of_nodup_map hI.nodup hu ht hid
      rw [he]
    · exact le_of_lt (hI.active_dom t ht htr u hu hfam hid).2.1
  · intro t ht htr u hu hfam hid
    exact hI.active_dom t ht htr u hu hfam hid

/-- Witness for claim C2, instantiated at issue followed by one
successful rotation: the surviving generation 1 token is the family
maximum, and the consumed generation 0 token is revoked at or before the
survivor's issue time. -/
theorem claim_c2_witness :
    ((⟨1, 0, 1, 1, 6, false, none⟩ : RefreshToken).generation =
      familyMaxGen (runOps Tracker.init [Op.opIssue 0 5, Op.opRotate 1 0 5])
        (⟨1, 0, 1, 1, 6, false, none⟩ : RefreshToken).family_id) ∧
    ((⟨0, 0, 0, 0, 5, true, some 1⟩ : RefreshToken).revoked = true ∧
      (⟨0, 0, 0, 0, 5, true, some 1⟩ : RefreshToken).generation <
        (⟨1, 0, 1, 1, 6, false, none⟩ : RefreshToken).generation ∧
      ∃ r, (⟨0, 0, 0, 0, 5, true, some 1⟩ : RefreshToken).revoked_at = some r ∧
        r ≤ (⟨1, 0, 1, 1, 6, false, none⟩ : RefreshToken).issued_at) := by
  have h := claim_c2_family_invariant [Op.opIssue 0 5, Op.opRotate 1 0 5]
    (by
      show List.Chain' (fun a b => a ≤ b) [0, 1]
      rw [List.chain'_cons]
      exact ⟨Nat.zero_le 1, List.chain'_singleton 1⟩)
  exact ⟨h.2.1 ⟨1, 0, 1, 1, 6, false, none⟩ (by decide) rfl,
    h.2.2 ⟨1, 0, 1, 1, 6, false, none⟩ (by decide) rfl
      ⟨0, 0, 0, 0, 5, true, some 1⟩ (by decide) rfl (by decide)⟩

/-- Claim C1 (amended): for every tracker state and token t with
revoked = true that is not yet expired, rotate(t.token_id, ttl) returns
Reused and revokes the whole family — every not-yet-revoked token of
the family becomes revoked = true with revoked_at = now, every already
revoked token keeps its record unchanged — and afterwards is_valid is
false for every member of the family at every query time. -/
theorem claim_c1_reuse_revokes_family (s : Tracker) (now tid ttl : Nat) (t : RefreshToken)
    (hfind : findToken s tid = some t) (hrev : t.revoked = true) (hexp : now < t.expires_at) :
    (rotate s now tid ttl).1 = Except.error RotationError.Reused ∧
    (rotate s now tid ttl).2 = revoke_family s now t.family_id ∧
    (∀ u ∈ s.tokens, u.family_id = t.family_id →
        revokeTok now t.family_id u ∈ (rotate s now tid ttl).2.tokens ∧
        (revokeTok now t.family_id u).revoked = true ∧
        (u.revoked = false → (revokeTok now t.family_id u).revoked_at = some now) ∧
        (u.revoked = true → revokeTok now t.family_id u = u)) ∧
    (∀ m tid' u, findToken (rotate s now tid ttl).2 tid' = some u →
        u.family_id = t.family_id → is_valid (rotate s now tid ttl).2 m tid' = false) := by
  have hx : ¬ t.expires_at ≤ now := not_le.mpr hexp
  have hrot := @rotate_eq_reused s now tid ttl t hfind hx hrev
  rw [hrot]
  refine ⟨rfl, rfl, ?_, ?_⟩
  · intro u hu hfam
    refine ⟨?_, revokeTok_revoked_of_family now hfam, ?_, ?_⟩
    · rw [revoke_family_tokens]
      exact List.mem_map.mpr ⟨u, hu, rfl⟩
    · intro hur
      rw [revokeTok_of_fire now hfam hur]
    · intro hur
      exact revokeTok_of_revoked now _ hur
  · intro m tid' u hfind' hfam'
    have hu := findToken_mem hfind'
    rw [revoke_family_tokens] at hu
    obtain ⟨u0, hu0, rfl⟩ := List.mem_map.mp hu
    have hufam : u0.family_id = t.family_id := by
      rw [← revokeTok_family_id now t.family_id u0]
      exact hfam'
    have hurev : (revokeTok now t.family_id u0).revoked = true :=
      revokeTok_revoked_of_family now hufam
    unfold is_valid
    rw [hfind']
    simp [hurev]

/-- Witness for claim C1 at a concrete state: after issue at time 0 with
ttl 5 and a family revocation at time 1, presenting the revoked but
unexpired token 0 at time 3 yields Reused and full-family revocation. -/
theorem claim_c1_witness :
    (rotate (runOps Tracker.init [Op.opIssue 0 5, Op.opRevoke 1 0]) 3 0 5).1 =
        Except.error RotationError.Reused ∧
    (rotate (runOps Tracker.init [Op.opIssue 0 5, Op.opRevoke 1 0]) 3 0 5).2 =
        revoke_family (runOps Tracker.init [Op.opIssue 0 5, Op.opRevoke 1 0]) 3 0 := by
  have h := claim_c1_reuse_revokes_family
    (runOps Tracker.init [Op.opIssue 0 5, Op.opRevoke 1 0]) 3 0 5
    ⟨0, 0, 0, 0, 5, true, some 1⟩ (by decide) rfl (by decide)
  exact ⟨h.1, h.2.1⟩

/-- Counterexample to claim C1 as stated: in the state reached by issue
at time 0 with ttl 5 and revoke_family at time 1, token 0 is revoked;
yet rotate on it at time 10 returns Expired, not Reused (the Expired
check precedes the Reused check), and rotate on it at time 3 returns
Reused while token 0 keeps revoked_at = some 1 rather than receiving
revoked_at = now = 3. -/
theorem claim_c1_counterexample :
    (findToken (runOps Tracker.init [Op.opIssue 0 5, Op.opRevoke 1 0]) 0 =
        some ⟨0, 0, 0, 0, 5, true, some 1⟩) ∧
    (rotate (runOps Tracker.init [Op.opIssue 0 5, Op.opRevoke 1 0]) 10 0 5).1 =
        Except.error RotationError.Expired ∧
    (rotate (runOps Tracker.init [Op.opIssue 0 5, Op.opRevoke 1 0]) 3 0 5).1 =
        Except.error RotationError.Reused ∧
    findToken (rotate (runOps Tracker.init [Op.opIssue 0 5, Op.opRevoke 1 0]) 3 0 5).2 0 =
        some ⟨0, 0, 0, 0, 5, true, some 1⟩ ∧
    (⟨0, 0, 0, 0, 5, true, some 1⟩ : RefreshToken).revoked_at ≠ some 3 := by
  refine ⟨by decide, rfl, rfl, by decide, by decide⟩

/-- Inversion of a successful rotate: the presented token was found,
unexpired, unrevoked and at the family maximum, the returned token is
its generation + 1 successor, and the post-state consumes the presented
token and appends the successor. -/
theorem rotate_ok_elim {s : Tracker} {now tid ttl : Nat} {t' : RefreshToken} {s' : Tracker}
    (h : rotate s now tid ttl = (Except.ok t', s')) :
    ∃ t, findToken s tid = some t ∧ ¬ t.expires_at ≤ now ∧ t.revoked = false ∧
      ¬ t.generation < familyMaxGen s t.family_id ∧
      t' = { token_id := s.nextTokenId, family_id := t.family_id,
             generation := t.generation + 1, issued_at := now,
             expires_at := now + ttl, revoked := false, revoked_at := none } ∧
      s' = { tokens := s.tokens.map (markConsumed now tid) ++ [t'],
             families := addToFamily s.families t.family_id s.nextTokenId,
             nextTokenId := s.nextTokenId + 1,
             nextFamilyId := s.nextFamilyId } := by
  cases hfind : findToken s tid with
  | none =>
    rw [rotate_eq_notFound hfind] at h
    simp only [Prod.mk.injEq] at h
    exact Except.noConfusion h.1
  | some t =>
    by_cases hx : t.expires_at ≤ now
    · rw [rotate_eq_expired hfind hx] at h
      simp only [Prod.mk.injEq] at h
      exact Except.noConfusion h.1
    · cases hr : t.revoked with
      | true =>
        rw [rotate_eq_reused hfind hx hr] at h
        simp only [Prod.mk.injEq] at h
        exact Except.noConfusion h.1
      | false =>
        by_cases hg : t.generation < familyMaxGen s t.family_id
        · rw [rotate_eq_stale hfind hx hr hg] at h
          simp only [Prod.mk.injEq] at h
          exact Except.noConfusion h.1
        · rw [rotate_eq_ok hfind hx hr hg] at h
          simp only [Prod.mk.injEq, Except.ok.injEq] at h
          refine ⟨t, rfl, hx, hr, hg, h.1.symm, ?_⟩
          rw [← h.2, ← h.1]

/-- The invariant carried along a chain of successful rotations: the
current token is a member, unrevoked, strictly dominating every other
token of its family in generation, with exactly generation + 1 family
members tracked; ids stay distinct and below the fresh-id counter. -/
structure ChainInv (s : Tracker) (t : RefreshToken) : Prop where
  nodup : (s.tokens.map (fun u => u.token_id)).Nodup
  ids_lt : ∀ u ∈ s.tokens, u.token_id < s.nextTokenId
  mem : t ∈ s.tokens
  unrevoked : t.revoked = false
  others : ∀ u ∈ s.tokens, u.family_id = t.family_id → u.token_id ≠ t.token_id →
    u.revoked = true ∧ u.generation < t.generation
  count : (s.tokens.filter (fun u => u.family_id == t.family_id)).length = t.generation + 1

/-- One successful rotation advances the chain invariant and increments
the generation within the same family. -/
theorem chainInv_step {s s' : Tracker} {t t' : RefreshToken} {now ttl : Nat}
    (hI : ChainInv s t) (h : rotate s now t.token_id ttl = (Except.ok t', s')) :
    ChainInv s' t' ∧ t'.generation = t.generation + 1 ∧ t'.family_id = t.family_id := by
  obtain ⟨t0, hfind, hx, hr, hg, ht', hs'⟩ := rotate_ok_elim h
  have ht0 : t0 = t := by
    rw [findToken_eq hI.nodup hI.mem] at hfind
    exact (Option.some.injEq _ _ ▸ hfind).symm
  subst ht0
  subst ht'
  subst hs'
  refine ⟨⟨?_, ?_, ?_, rfl, ?_, ?_⟩, rfl, rfl⟩
  · rw [List.map_append, ids_map_markConsumed]
    exact nodup_ids_append_fresh
      (fun a ha => by
        obtain ⟨u, hu, rfl⟩ := List.mem_map.mp ha
        exact hI.ids_lt u hu)
      hI.nodup
  · intro u hu
    rcases List.mem_append.mp hu with huL | huR
    · obtain ⟨u0, hu0, rfl⟩ := List.mem_map.mp huL
      rw [markConsumed_token_id]
      exact lt_trans (hI.ids_lt u0 hu0) (Nat.lt_succ_self _)
    · rw [List.mem_singleton] at huR
      subst huR
      exact Nat.lt_succ_self _
  · exact List.mem_append.mpr (Or.inr (List.mem_singleton.mpr rfl))
  · intro u hu hf hi
    dsimp only at hf hi
    rcases List.mem_append.mp hu with huL | huR
    · obtain ⟨w0, hw0, rfl⟩ := List.mem_map.mp huL
      by_cases hw : w0.token_id = t0.token_id
      · have hw0t : w0 = t0 := List.inj_on_of_nodup_map hI.nodup hw0 hI.mem hw
        subst hw0t
        rw [markConsumed_of_eq now rfl]
        exact ⟨rfl, Nat.lt_succ_self _⟩
      · rw [markConsumed_of_ne now hw] at hf hi ⊢
        obtain ⟨hrv, hgen⟩ := hI.others w0 hw0 hf hw
        exact ⟨hrv, lt_trans hgen (Nat.lt_succ_self _)⟩
    · exfalso
      rw [List.mem_singleton] at huR
      subst huR
      exact hi rfl
  · dsimp only
    rw [List.filter_append, List.filter_map, List.length_append, List.length_map]
    have hcong : s.tokens.filter ((fun u => u.family_id == t0.family_id) ∘ markConsumed now t0.token_id) =
        s.tokens.filter (fun u => u.family_id == t0.family_id) := by
      apply List.filter_congr
      intro u _
      simp [Function.comp, markConsumed_family_id]
    rw [hcong, hI.count]
    simp

/-- Along a chain of successful rotations the invariant is maintained
and the generation advances by the number of steps, within one family. -/
theorem rotN_spec : ∀ (steps : List (Nat × Nat)) (s : Tracker) (t : RefreshToken)
    (tN : RefreshToken) (sN : Tracker), ChainInv s t →
    rotN s t steps = some (tN, sN) →
    ChainInv sN tN ∧ tN.generation = t.generation + steps.length ∧
      tN.family_id = t.family_id := by
  intro steps
  induction steps with
  | nil =>
    intro s t tN sN hI hrun
    simp only [rotN, Option.some.injEq, Prod.mk.injEq] at hrun
    obtain ⟨h1, h2⟩ := hrun
    subst h1
    subst h2
    exact ⟨hI, by simp, rfl⟩
  | cons step rest ih =>
    intro s t tN sN hI hrun
    obtain ⟨now, ttl⟩ := step
    cases hrot : rotate s now t.token_id ttl with
    | mk res s2 =>
      cases res with
      | ok t2 =>
        have hstep := chainInv_step hI hrot
        simp only [rotN, hrot] at hrun
        obtain ⟨hI2, hgen, hfam⟩ := ih s2 t2 tN sN hstep.1 hrun
        refine ⟨hI2, ?_, by rw [hfam, hstep.2.2]⟩
        rw [hgen, hstep.2.1]
        simp [List.length_cons]
        omega
      | error e =>
        simp only [rotN, hrot] at hrun
        exact Option.noConfusion hrun

/-- Claim C3: starting from issue on any well-formed tracker and
performing N sequential successful rotate calls, each presenting the
token returned by the previous call, the surviving active token has
generation N, is unrevoked, every other token of its family is revoked,
and the family holds exactly N + 1 tokens (the N consumed ones plus the
survivor). -/
theorem claim_c3_rotation_chain (s0 : Tracker) (now0 ttl0 : Nat) (steps : List (Nat × Nat))
    (tN : RefreshToken) (sN : Tracker)
    (hnd : (s0.tokens.map (fun u => u.token_id)).Nodup)
    (hident : ∀ u ∈ s0.tokens, u.token_id < s0.nextTokenId)
    (hfament : ∀ u ∈ s0.tokens, u.family_id < s0.nextFamilyId)
    (hrun : rotN (issue s0 now0 ttl0).2 (issue s0 now0 ttl0).1 steps = some (tN, sN)) :
    tN.generation = steps.length ∧ tN.revoked = false ∧
    (∀ u ∈ sN.tokens, u.family_id = tN.family_id → u.token_id ≠ tN.token_id →
        u.revoked = true) ∧
    (sN.tokens.filter (fun u => u.family_id == tN.family_id)).length = steps.length + 1 := by
  have hI : ChainInv (issue s0 now0 ttl0).2 (issue s0 now0 ttl0).1 := by
    refine ⟨?_, ?_, ?_, rfl, ?_, ?_⟩
    · rw [issue_snd]
      show ((s0.tokens ++ [(issue s0 now0 ttl0).1]).map (fun u => u.token_id)).Nodup
      rw [List.map_append, issue_fst]
      exact nodup_ids_append_fresh
        (fun a ha => by
          obtain ⟨u, hu, rfl⟩ := List.mem_map.mp ha
          exact hident u hu)
        hnd
    · intro u hu
      rw [issue_snd] at hu ⊢
      rcases List.mem_append.mp hu with hu' | hu'
      · exact lt_trans (hident u hu') (Nat.lt_succ_self _)
      · have : u = (issue s0 now0 ttl0).1 := by simpa using hu'
        subst this
        rw [issue_fst]
        exact Nat.lt_succ_self _
    · rw [issue_snd]
      exact List.mem_append.mpr (Or.inr (List.mem_singleton.mpr rfl))
    · intro u hu hf hi
      rw [issue_snd] at hu
      rcases List.mem_append.mp hu with hu' | hu'
      · exfalso
        rw [issue_fst] at hf
        exact absurd hf (Nat.ne_of_lt (hfament u hu'))
      · exfalso
        have : u = (issue s0 now0 ttl0).1 := by simpa using hu'
        subst this
        exact hi rfl
    · rw [issue_snd]
      show ((s0.tokens ++ [(issue s0 now0 ttl0).1]).filter
        (fun u => u.family_id == (issue s0 now0 ttl0).1.family_id)).length =
          (issue s0 now0 ttl0).1.generation + 1
      rw [List.filter_append]
      have h1 : s0.tokens.filter
          (fun u => u.family_id == (issue s0 now0 ttl0).1.family_id) = [] := by
        rw [List.filter_eq_nil_iff]
        intro u hu
        simp only [beq_iff_eq, issue_fst]
        exact Nat.ne_of_lt (hfament u hu)
      have h2 : [(issue s0 now0 ttl0).1].filter
          (fun u => u.family_id == (issue s0 now0 ttl0).1.family_id) =
            [(issue s0 now0 ttl0).1] := by
        simp
      rw [h1, h2]
      rfl
  obtain ⟨hIN, hgen, hfamN⟩ := rotN_spec steps _ _ tN sN hI hrun
  have hg0 : (issue s0 now0 ttl0).1.generation = 0 := rfl
  refine ⟨by omega, hIN.unrevoked, ?_, ?_⟩
  · intro u hu hf hi
    exact (hIN.others u hu hf hi).1
  · have hc := hIN.count
    omega

/-- Witness for claim C3: two successful rotations after issue from the
empty tracker yield a generation 2 active token in a family of three
tracked tokens. -/
theorem claim_c3_witness :
    (⟨2, 0, 2, 2, 7, false, none⟩ : RefreshToken).generation = 2 ∧
    (⟨2, 0, 2, 2, 7, false, none⟩ : RefreshToken).revoked = false ∧
    ((⟨[⟨0, 0, 0, 0, 5, true, some 1⟩, ⟨1, 0, 1, 1, 6, true, some 2⟩,
        ⟨2, 0, 2, 2, 7, false, none⟩], [(0, [0, 1, 2])], 3, 1⟩ : Tracker).tokens.filter
      (fun u => u.family_id == (⟨2, 0, 2, 2, 7, false, none⟩ : RefreshToken).family_id)).length =
        2 + 1 := by
  have h := claim_c3_rotation_chain Tracker.init 0 5 [(1, 5), (2, 5)]
    ⟨2, 0, 2, 2, 7, false, none⟩
    ⟨[⟨0, 0, 0, 0, 5, true, some 1⟩, ⟨1, 0, 1, 1, 6, true, some 2⟩,
      ⟨2, 0, 2, 2, 7, false, none⟩], [(0, [0, 1, 2])], 3, 1⟩
    (by decide) (by decide) (by decide) (by decide)
  exact ⟨h.1, h.2.1, h.2.2.2⟩

/-- With distinct ids, finding by id in a filtered list returns the
original find result exactly when it passes the filter. -/
theorem find?_id_filter {l : List RefreshToken}
    (hnd : (l.map (fun u => u.token_id)).Nodup) (p : RefreshToken → Bool) (tid : Nat) :
    (l.filter p).find? (fun u => u.token_id == tid) =
      match l.find? (fun u => u.token_id == tid) with
      | some t => if p t = true then some t else none
      | none => none := by
  induction l with
  | nil => rfl
  | cons x xs ih =>
    rw [List.map_cons, List.nodup_cons] at hnd
    by_cases hb : (x.token_id == tid) = true
    · rw [@List.find?_cons_of_pos _ (fun u => u.token_id == tid) x xs hb]
      cases hp : p x with
      | true =>
        rw [List.filter_cons_of_pos hp,
          @List.find?_cons_of_pos _ (fun u => u.token_id == tid) x (List.filter p xs) hb]
        simp [hp]
      | false =>
        rw [List.filter_cons_of_neg (by simp [hp]), ih hnd.2]
        have hnone : xs.find? (fun u => u.token_id == tid) = none := by
          rw [List.find?_eq_none]
          intro u hu hbu
          apply hnd.1
          have h1 : x.token_id = tid := beq_iff_eq.mp hb
          have h2 : u.token_id = tid := beq_iff_eq.mp hbu
          rw [h1, ← h2]
          exact List.mem_map.mpr ⟨u, hu, rfl⟩
        rw [hnone]
        simp [hp]
    · rw [@List.find?_cons_of_neg _ (fun u => u.token_id == tid) x xs hb]
      cases hp : p x with
      | true =>
        rw [List.filter_cons_of_pos hp,
          @List.find?_cons_of_neg _ (fun u => u.token_id == tid) x (List.filter p xs) hb,
          ih hnd.2]
      | false =>
        rw [List.filter_cons_of_neg (by simp [hp]), ih hnd.2]

/-- find? by key commutes with mapping a function over the values of an
association list. -/
theorem find?_fst_map (l : List (Nat × List Nat)) (g : List Nat → List Nat) (fid : Nat) :
    (l.map (fun p => (p.1, g p.2))).find? (fun p => p.1 == fid) =
      (l.find? (fun p => p.1 == fid)).map (fun p => (p.1, g p.2)) := by
  induction l with
  | nil => rfl
  | cons x xs ih =>
    by_cases hb : (x.1 == fid) = true
    · rw [List.map_cons,
        @List.find?_cons_of_pos _ (fun p => p.1 == fid) (x.1, g x.2)
          (List.map (fun p => (p.1, g p.2)) xs) hb,
        @List.find?_cons_of_pos _ (fun p => p.1 == fid) x xs hb]
      rfl
    · rw [List.map_cons,
        @List.find?_cons_of_neg _ (fun p => p.1 == fid) (x.1, g x.2)
          (List.map (fun p => (p.1, g p.2)) xs) hb,
        @List.find?_cons_of_neg _ (fun p => p.1 == fid) x xs hb, ih]

/-- Claim C4: cleanup(now) removes exactly the tokens with
expires_at <= now from both mappings regardless of revoked state,
returns the number removed, and leaves every token with
expires_at > now present and queryable unchanged. -/
theorem claim_c4_cleanup (s : Tracker) (now : Nat)
    (hnd : (s.tokens.map (fun u => u.token_id)).Nodup) :
    (cleanup s now).1 = (s.tokens.filter (fun t => decide (t.expires_at ≤ now))).length ∧
    (∀ t ∈ s.tokens, (t ∈ (cleanup s now).2.tokens ↔ now < t.expires_at)) ∧
    (∀ t ∈ (cleanup s now).2.tokens, t ∈ s.tokens) ∧
    (∀ tid t, findToken s tid = some t →
        findToken (cleanup s now).2 tid = if now < t.expires_at then some t else none) ∧
    (∀ tid, findToken s tid = none → findToken (cleanup s now).2 tid = none) ∧
    (∀ fid ids, findFam s fid = some ids →
        ∃ ids', findFam (cleanup s now).2 fid = some ids' ∧
          ∀ tid, (tid ∈ ids' ↔ tid ∈ ids ∧
            ∃ t ∈ (cleanup s now).2.tokens, t.token_id = tid)) := by
  refine ⟨rfl, ?_, ?_, ?_, ?_, ?_⟩
  · intro t ht
    rw [cleanup_snd_tokens]
    simp [List.mem_filter, ht]
  · intro t ht
    rw [cleanup_snd_tokens] at ht
    exact (List.mem_filter.mp ht).1
  · intro tid t hf
    unfold findToken at hf ⊢
    rw [cleanup_snd_tokens, find?_id_filter hnd, hf]
    simp only [decide_eq_true_eq]
  · intro tid hf
    unfold findToken at hf ⊢
    rw [cleanup_snd_tokens, find?_id_filter hnd, hf]
  · intro fid ids hf
    unfold findFam at hf ⊢
    rw [cleanup_snd_families, find?_fst_map]
    obtain ⟨q, hq, hq2⟩ := Option.map_eq_some'.mp hf
    refine ⟨ids.filter (fun tid =>
      ((s.tokens.filter (fun t => decide (now < t.expires_at))).map
        (fun t => t.token_id)).contains tid), ?_, ?_⟩
    · rw [hq, Option.map_map]
      simp only [Function.comp, Option.map_some']
      rw [hq2]
    · intro tid
      rw [cleanup_snd_tokens, List.mem_filter]
      constructor
      · rintro ⟨h1, h2⟩
        refine ⟨h1, ?_⟩
        have h3 : tid ∈ (s.tokens.filter (fun t => decide (now < t.expires_at))).map
            (fun t => t.token_id) := List.elem_iff.mp h2
        obtain ⟨t, htmem, hteq⟩ := List.mem_map.mp h3
        exact ⟨t, htmem, hteq⟩
      · rintro ⟨h1, t, htmem, hteq⟩
        refine ⟨h1, ?_⟩
        exact List.elem_iff.mpr (List.mem_map.mpr ⟨t, htmem, hteq⟩)

/-- Witness for claim C4 at a concrete state with one expired and one
live token: cleanup at time 5 forgets token 0 and keeps token 1
queryable. -/
theorem claim_c4_witness :
    findToken (cleanup (runOps Tracker.init [Op.opIssue 0 5, Op.opIssue 3 10]) 5).2 1 =
      (if 5 < (⟨1, 1, 0, 3, 13, false, none⟩ : RefreshToken).expires_at
        then some ⟨1, 1, 0, 3, 13, false, none⟩ else none) ∧
    findToken (cleanup (runOps Tracker.init [Op.opIssue 0 5, Op.opIssue 3 10]) 5).2 0 =
      (if 5 < (⟨0, 0, 0, 0, 5, false, none⟩ : RefreshToken).expires_at
        then some ⟨0, 0, 0, 0, 5, false, none⟩ else none) := by
  have h := claim_c4_cleanup (runOps Tracker.init [Op.opIssue 0 5, Op.opIssue 3 10]) 5
    (by decide)
  exact ⟨h.2.2.2.1 1 ⟨1, 1, 0, 3, 13, false, none⟩ (by decide),
    h.2.2.2.1 0 ⟨0, 0, 0, 0, 5, false, none⟩ (by decide)⟩

/-- Claim C5 (amended): is_valid(token_id) is true iff the token exists,
is unrevoked, and its expiry is strictly in the future; a token issued
with positive ttl is valid immediately and becomes invalid at every
query time at or past its expires_at. -/
theorem claim_c5_is_valid (s : Tracker) (now ttl : Nat)
    (hids : ∀ u ∈ s.tokens, u.token_id < s.nextTokenId) (httl : 0 < ttl) :
    (∀ m tid, (is_valid s m tid = true ↔
        ∃ t, findToken s tid = some t ∧ t.revoked = false ∧ m < t.expires_at)) ∧
    is_valid (issue s now ttl).2 now (issue s now ttl).1.token_id = true ∧
    (∀ m, (issue s now ttl).1.expires_at ≤ m →
        is_valid (issue s now ttl).2 m (issue s now ttl).1.token_id = false) := by
  have hfind : findToken (issue s now ttl).2 (issue s now ttl).1.token_id =
      some (issue s now ttl).1 := by
    unfold findToken
    rw [issue_snd]
    show (s.tokens ++ [(issue s now ttl).1]).find?
      (fun u => u.token_id == (issue s now ttl).1.token_id) = _
    rw [find?_append_right]
    · exact List.find?_cons_of_pos _ (by simp)
    · intro a ha
      rw [beq_eq_false_iff_ne]
      rw [issue_fst]
      exact Nat.ne_of_lt (hids a ha)
  refine ⟨?_, ?_, ?_⟩
  · intro m tid
    unfold is_valid
    cases hf : findToken s tid with
    | none => simp
    | some t =>
      simp [Bool.and_eq_true, Bool.not_eq_true', decide_eq_true_eq]
  · unfold is_valid
    rw [hfind]
    simp [issue_fst]
    omega
  · intro m hm
    unfold is_valid
    rw [hfind]
    rw [issue_fst] at hm
    simp only [issue_fst, Bool.and_eq_true, Bool.not_eq_true', decide_eq_true_eq]
    simp only [Bool.and_eq_false_iff]
    right
    simp only [decide_eq_false_iff_not, not_lt]
    exact hm

/-- Witness for claim C5: a token issued at time 2 with ttl 5 is valid
at time 2 and invalid at time 7. -/
theorem claim_c5_witness :
    is_valid (issue Tracker.init 2 5).2 2 (issue Tracker.init 2 5).1.token_id = true ∧
    is_valid (issue Tracker.init 2 5).2 7 (issue Tracker.init 2 5).1.token_id = false := by
  have h := claim_c5_is_valid Tracker.init 2 5 (by decide) (by decide)
  exact ⟨h.2.1, h.2.2 7 (by decide)⟩

/-- Counterexample to claim C5 as stated: a token issued with ttl = 0
exists, is unrevoked, yet is_valid is false immediately at its own issue
time, so a freshly issued token is not always valid immediately. -/
theorem claim_c5_counterexample :
    findToken (issue Tracker.init 0 0).2 0 = some ⟨0, 0, 0, 0, 0, false, none⟩ ∧
    is_valid (issue Tracker.init 0 0).2 0 0 = false := by
  exact ⟨by decide, by decide⟩

/-- Claim C6: revoke_family is idempotent — a second revocation of the
same family at any later (or any) time leaves the tracker state exactly
as after the first — and revoking a family id no tracked token carries
is a no-op; revoke_family is total, so both calls succeed. -/
theorem claim_c6_revoke_family_idempotent (s : Tracker) (n1 n2 fid : Nat) :
    revoke_family (revoke_family s n1 fid) n2 fid = revoke_family s n1 fid ∧
    (∀ m g, (∀ u ∈ s.tokens, u.family_id ≠ g) → revoke_family s m g = s) := by
  constructor
  · have hmaps : (s.tokens.map (revokeTok n1 fid)).map (revokeTok n2 fid) =
        s.tokens.map (revokeTok n1 fid) := by
      rw [List.map_map]
      apply List.map_congr_left
      intro a _
      simp only [Function.comp]
      exact revokeTok_idem n1 n2 fid a
    unfold revoke_family
    dsimp only
    rw [hmaps]
  · intro m g hg
    have hmap : s.tokens.map (revokeTok m g) = s.tokens := by
      have h2 : s.tokens.map (revokeTok m g) = s.tokens.map id := by
        apply List.map_congr_left
        intro a ha
        simp only [id]
        exact revokeTok_of_ne_family m (hg a ha)
      rw [h2, List.map_id]
    unfold revoke_family
    rw [hmap]

/-- Witness for claim C6 at a concrete one-token family: a second
revocation at a later time changes nothing, and revoking the unknown
family 7 is a no-op. -/
theorem claim_c6_witness :
    revoke_family (revoke_family (runOps Tracker.init [Op.opIssue 0 5]) 1 0) 2 0 =
      revoke_family (runOps Tracker.init [Op.opIssue 0 5]) 1 0 ∧
    revoke_family (runOps Tracker.init [Op.opIssue 0 5]) 3 7 =
      runOps Tracker.init [Op.opIssue 0 5] := by
  have h := claim_c6_revoke_family_idempotent (runOps Tracker.init [Op.opIssue 0 5]) 1 2 0
  exact ⟨h.1, h.2 3 7 (by decide)⟩

/-- Claim C7: whenever rotate returns an error, no partial mutation is
observable — the secondary mapping, both counters and the token id list
are unchanged; every surviving record is either untouched or is an
unrevoked record consistently marked revoked at now; NotFound and
Expired leave the state identical; Reused and StaleGeneration leave
exactly the presented token's family revoked, with no successor
inserted into either mapping. -/
theorem claim_c7_failed_rotate_no_partial (s : Tracker) (now tid ttl : Nat)
    (e : RotationError) (s' : Tracker)
    (h : rotate s now tid ttl = (Except.error e, s')) :
    s'.families = s.families ∧ s'.nextTokenId = s.nextTokenId ∧
    s'.nextFamilyId = s.nextFamilyId ∧
    s'.tokens.map (fun u => u.token_id) = s.tokens.map (fun u => u.token_id) ∧
    (∀ u ∈ s'.tokens, ∃ u0, u0 ∈ s.tokens ∧ u0.token_id = u.token_id ∧
        (u = u0 ∨ (u0.revoked = false ∧
          u = { u0 with revoked := true, revoked_at := some now }))) ∧
    ((e = RotationError.NotFound ∨ e = RotationError.Expired) → s' = s) ∧
    ((e = RotationError.Reused ∨ e = RotationError.StaleGeneration) →
        ∃ t, findToken s tid = some t ∧ s' = revoke_family s now t.family_id) := by
  have hrevoke : ∀ (fid : Nat), s' = revoke_family s now fid →
      (s'.families = s.families ∧ s'.nextTokenId = s.nextTokenId ∧
       s'.nextFamilyId = s.nextFamilyId ∧
       s'.tokens.map (fun u => u.token_id) = s.tokens.map (fun u => u.token_id) ∧
       (∀ u ∈ s'.tokens, ∃ u0, u0 ∈ s.tokens ∧ u0.token_id = u.token_id ∧
          (u = u0 ∨ (u0.revoked = false ∧
            u = { u0 with revoked := true, revoked_at := some now })))) := by
    intro fid hs
    subst hs
    refine ⟨rfl, rfl, rfl, ?_, ?_⟩
    · rw [revoke_family_tokens]
      exact ids_map_revokeTok now fid s.tokens
    · intro u hu
      rw [revoke_family_tokens] at hu
      obtain ⟨u0, hu0, rfl⟩ := List.mem_map.mp hu
      refine ⟨u0, hu0, (revokeTok_token_id now fid u0).symm, ?_⟩
      cases hrv : u0.revoked with
      | true => exact Or.inl (revokeTok_of_revoked now fid hrv)
      | false =>
        by_cases hf : u0.family_id = fid
        · exact Or.inr ⟨rfl, revokeTok_of_fire now hf hrv⟩
        · exact Or.inl (revokeTok_of_ne_family now hf)
  cases hfind : findToken s tid with
  | none =>
    rw [rotate_eq_notFound hfind] at h
    simp only [Prod.mk.injEq, Except.error.injEq] at h
    obtain ⟨he, hs⟩ := h
    subst he
    subst hs
    refine ⟨rfl, rfl, rfl, rfl, ?_, fun _ => rfl, ?_⟩
    · intro u hu
      exact ⟨u, hu, rfl, Or.inl rfl⟩
    · rintro (hc | hc) <;> exact RotationError.noConfusion hc
  | some t =>
    by_cases hx : t.expires_at ≤ now
    · rw [rotate_eq_expired hfind hx] at h
      simp only [Prod.mk.injEq, Except.error.injEq] at h
      obtain ⟨he, hs⟩ := h
      subst he
      subst hs
      refine ⟨rfl, rfl, rfl, rfl, ?_, fun _ => rfl, ?_⟩
      · intro u hu
        exact ⟨u, hu, rfl, Or.inl rfl⟩
      · rintro (hc | hc) <;> exact RotationError.noConfusion hc
    · cases hr : t.revoked with
      | true =>
        rw [rotate_eq_reused hfind hx hr] at h
        simp only [Prod.mk.injEq, Except.error.injEq] at h
        obtain ⟨he, hs⟩ := h
        subst he
        obtain ⟨h1, h2, h3, h4, h5⟩ := hrevoke t.family_id hs.symm
        refine ⟨h1, h2, h3, h4, h5, ?_, ?_⟩
        · rintro (hc | hc) <;> exact RotationError.noConfusion hc
        · intro _
          exact ⟨t, rfl, hs.symm⟩
      | false =>
        by_cases hg : t.generation < familyMaxGen s t.family_id
        · rw [rotate_eq_stale hfind hx hr hg] at h
          simp only [Prod.mk.injEq, Except.error.injEq] at h
          obtain ⟨he, hs⟩ := h
          subst he
          obtain ⟨h1, h2, h3, h4, h5⟩ := hrevoke t.family_id hs.symm
          refine ⟨h1, h2, h3, h4, h5, ?_, ?_⟩
          · rintro (hc | hc) <;> exact RotationError.noConfusion hc
          · intro _
            exact ⟨t, rfl, hs.symm⟩
        · rw [rotate_eq_ok hfind hx hr hg] at h
          simp only [Prod.mk.injEq] at h
          exact Except.noConfusion h.1

/-- Witness for claim C7 at a concrete Reused failure: the secondary
mapping and the token id list of the post-state match the pre-state. -/
theorem claim_c7_witness :
    (rotate (runOps Tracker.init [Op.opIssue 0 5, Op.opRevoke 1 0]) 3 0 5).2.families =
      (runOps Tracker.init [Op.opIssue 0 5, Op.opRevoke 1 0]).families ∧
    (rotate (runOps Tracker.init [Op.opIssue 0 5, Op.opRevoke 1 0]) 3 0 5).2.tokens.map
        (fun u => u.token_id) =
      (runOps Tracker.init [Op.opIssue 0 5, Op.opRevoke 1 0]).tokens.map
        (fun u => u.token_id) := by
  have h := claim_c7_failed_rotate_no_partial
    (runOps Tracker.init [Op.opIssue 0 5, Op.opRevoke 1 0]) 3 0 5
    RotationError.Reused
    (rotate (runOps Tracker.init [Op.opIssue 0 5, Op.opRevoke 1 0]) 3 0 5).2 rfl
  exact ⟨h.1, h.2.2.2.1⟩

/-- The id bookkeeping preserved by every operation: distinct token ids,
all below the fresh-id counter. -/
structure IdInv (s : Tracker) : Prop where
  nodup : (s.tokens.map (fun u => u.token_id)).Nodup
  ids_lt : ∀ u ∈ s.tokens, u.token_id < s.nextTokenId

/-- revoke_family preserves the id bookkeeping. -/
theorem idInv_revoke (s : Tracker) (n fid : Nat) (h : IdInv s) :
    IdInv (revoke_family s n fid) := by
  constructor
  · rw [revoke_family_tokens, ids_map_revokeTok]
    exact h.nodup
  · intro u hu
    rw [revoke_family_tokens] at hu
    obtain ⟨u0, hu0, rfl⟩ := List.mem_map.mp hu
    rw [revokeTok_token_id]
    exact h.ids_lt u0 hu0

/-- Every operation preserves the id bookkeeping. -/
theorem idInv_applyOp (s : Tracker) (op : Op) (h : IdInv s) : IdInv (applyOp s op) := by
  cases op with
  | opIssue n ttl =>
    dsimp only [applyOp]
    constructor
    · rw [issue_snd]
      show ((s.tokens ++ [(issue s n ttl).1]).map (fun u => u.token_id)).Nodup
      rw [List.map_append, issue_fst]
      exact nodup_ids_append_fresh
        (fun a ha => by
          obtain ⟨u, hu, rfl⟩ := List.mem_map.mp ha
          exact h.ids_lt u hu)
        h.nodup
    · intro u hu
      rw [issue_snd] at hu ⊢
      rcases List.mem_append.mp hu with hu' | hu'
      · exact lt_trans (h.ids_lt u hu') (Nat.lt_succ_self _)
      · have : u = (issue s n ttl).1 := by simpa using hu'
        subst this
        rw [issue_fst]
        exact Nat.lt_succ_self _
  | opRotate n tid ttl =>
    dsimp only [applyOp]
    cases hfind : findToken s tid with
    | none =>
      rw [rotate_eq_notFound hfind]
      exact h
    | some t =>
      by_cases hx : t.expires_at ≤ n
      · rw [rotate_eq_expired hfind hx]
        exact h
      · cases hr : t.revoked with
        | true =>
          rw [rotate_eq_reused hfind hx hr]
          exact idInv_revoke s n t.family_id h
        | false =>
          by_cases hg : t.generation < familyMaxGen s t.family_id
          · rw [rotate_eq_stale hfind hx hr hg]
            exact idInv_revoke s n t.family_id h
          · rw [rotate_eq_ok hfind hx hr hg]
            constructor
            · dsimp only
              rw [List.map_append, ids_map_markConsumed]
              exact nodup_ids_append_fresh
                (fun a ha => by
                  obtain ⟨u, hu, rfl⟩ := List.mem_map.mp ha
                  exact h.ids_lt u hu)
                h.nodup
            · intro u hu
              dsimp only at hu ⊢
              rcases List.mem_append.mp hu with hu' | hu'
              · obtain ⟨u0, hu0, rfl⟩ := List.mem_map.mp hu'
                rw [markConsumed_token_id]
                exact lt_trans (h.ids_lt u0 hu0) (Nat.lt_succ_self _)
              · rw [List.mem_singleton] at hu'
                subst hu'
                exact Nat.lt_succ_self _
  | opRevoke n fid =>
    exact idInv_revoke s n fid h
  | opCleanup n =>
    dsimp only [applyOp]
    have hsub : (cleanup s n).2.tokens.Sublist s.tokens := by
      rw [cleanup_snd_tokens]
      exact List.filter_sublist s.tokens
    constructor
    · exact List.Nodup.sublist (List.Sublist.map _ hsub) h.nodup
    · intro u hu
      exact h.ids_lt u (hsub.mem hu)

/-- The id bookkeeping holds for the empty tracker. -/
theorem idInv_init : IdInv Tracker.init :=
  ⟨by simp [Tracker.init], by simp [Tracker.init]⟩

/-- The id bookkeeping holds after any operation sequence. -/
theorem idInv_runOps (ops : List Op) : ∀ s, IdInv s → IdInv (runOps s ops) := by
  induction ops with
  | nil => intro s h; exact h
  | cons op rest ih =>
    intro s h
    exact ih (applyOp s op) (idInv_applyOp s op h)

/-- If every token carrying an id is revoked and the id is below the
fresh-id counter, one operation keeps both facts. -/
theorem revoked_persists_applyOp (tid : Nat) (op : Op) (s : Tracker)
    (hlt : tid < s.nextTokenId)
    (hall : ∀ u ∈ s.tokens, u.token_id = tid → u.revoked = true) :
    tid < (applyOp s op).nextTokenId ∧
    ∀ u ∈ (applyOp s op).tokens, u.token_id = tid → u.revoked = true := by
  have hrevoke : ∀ (n fid : Nat),
      ∀ u ∈ (revoke_family s n fid).tokens, u.token_id = tid → u.revoked = true := by
    intro n fid u hu hid
    rw [revoke_family_tokens] at hu
    obtain ⟨u0, hu0, rfl⟩ := List.mem_map.mp hu
    rw [revokeTok_token_id] at hid
    exact revokeTok_keeps_revoked n fid (hall u0 hu0 hid)
  cases op with
  | opIssue n ttl =>
    dsimp only [applyOp]
    constructor
    · rw [issue_snd]
      exact lt_trans hlt (Nat.lt_succ_self _)
    · intro u hu hid
      rw [issue_snd] at hu
      rcases List.mem_append.mp hu with hu' | hu'
      · exact hall u hu' hid
      · exfalso
        have : u = (issue s n ttl).1 := by simpa using hu'
        subst this
        rw [issue_fst] at hid
        exact absurd hid.symm (Nat.ne_of_lt hlt)
  | opRotate n tid2 ttl =>
    dsimp only [applyOp]
    cases hfind : findToken s tid2 with
    | none =>
      rw [rotate_eq_notFound hfind]
      exact ⟨hlt, hall⟩
    | some t =>
      by_cases hx : t.expires_at ≤ n
      · rw [rotate_eq_expired hfind hx]
        exact ⟨hlt, hall⟩
      · cases hr : t.revoked with
        | true =>
          rw [rotate_eq_reused hfind hx hr]
          exact ⟨hlt, hrevoke n t.family_id⟩
        | false =>
          by_cases hg : t.generation < familyMaxGen s t.family_id
          · rw [rotate_eq_stale hfind hx hr hg]
            exact ⟨hlt, hrevoke n t.family_id⟩
          · rw [rotate_eq_ok hfind hx hr hg]
            refine ⟨lt_trans hlt (Nat.lt_succ_self _), ?_⟩
            intro u hu hid
            dsimp only at hu
            rcases List.mem_append.mp hu with hu' | hu'
            · obtain ⟨u0, hu0, rfl⟩ := List.mem_map.mp hu'
              rw [markConsumed_token_id] at hid
              exact markConsumed_keeps_revoked n tid2 (hall u0 hu0 hid)
            · exfalso
              rw [List.mem_singleton] at hu'
              subst hu'
              exact absurd hid.symm (Nat.ne_of_lt hlt)
  | opRevoke n fid =>
    exact ⟨hlt, hrevoke n fid⟩
  | opCleanup n =>
    dsimp only [applyOp]
    refine ⟨hlt, ?_⟩
    intro u hu hid
    rw [cleanup_snd_tokens] at hu
    exact hall u (List.mem_filter.mp hu).1 hid

/-- Once every record carrying an id is revoked, it stays so along any
operation sequence. -/
theorem revoked_persists_runOps (tid : Nat) (more : List Op) : ∀ (s : Tracker),
    tid < s.nextTokenId →
    (∀ u ∈ s.tokens, u.token_id = tid → u.revoked = true) →
    ∀ u ∈ (runOps s more).tokens, u.token_id = tid → u.revoked = true := by
  induction more with
  | nil => intro s _ hall; exact hall
  | cons op rest ih =>
    intro s hlt hall
    have hstep := revoked_persists_applyOp tid op s hlt hall
    exact ih (applyOp s op) hstep.1 hstep.2

/-- Claim C8: once a tracked token's revoked flag is true it never
returns to false — any record with the same token id, after any further
sequence of issue, rotate, revoke_family and cleanup operations, is
still revoked. -/
theorem claim_c8_revocation_permanent (ops more : List Op) (t t' : RefreshToken)
    (ht : t ∈ (runOps Tracker.init ops).tokens) (hrev : t.revoked = true)
    (ht' : t' ∈ (runOps Tracker.init (ops ++ more)).tokens)
    (hid : t'.token_id = t.token_id) : t'.revoked = true := by
  have hI := idInv_runOps ops Tracker.init idInv_init
  have hall : ∀ u ∈ (runOps Tracker.init ops).tokens,
      u.token_id = t.token_id → u.revoked = true := by
    intro u hu hid2
    have he : u = t := List.inj_on_of_nodup_map hI.nodup hu ht hid2
    rw [he]
    exact hrev
  have hlt : t.token_id < (runOps Tracker.init ops).nextTokenId := hI.ids_lt t ht
  have hrun : runOps Tracker.init (ops ++ more) =
      runOps (runOps Tracker.init ops) more := by
    unfold runOps
    rw [List.foldl_append]
  rw [hrun] at ht'
  exact revoked_persists_runOps t.token_id more (runOps Tracker.init ops) hlt hall t' ht' hid

/-- Witness for claim C8: the token revoked by a family revocation is
still revoked after a further issue operation. -/
theorem claim_c8_witness :
    (⟨0, 0, 0, 0, 5, true, some 1⟩ : RefreshToken).revoked = true :=
  claim_c8_revocation_permanent [Op.opIssue 0 5, Op.opRevoke 1 0] [Op.opIssue 2 7]
    ⟨0, 0, 0, 0, 5, true, some 1⟩ ⟨0, 0, 0, 0, 5, true, some 1⟩
    (by decide) rfl (by decide) rfl

/-- Claim C9: the three analysis functions of src/security_analysis.py
are deterministic constants — they take no input (modelled by Unit),
read no state, and any two calls return the identical hardcoded
dictionary. -/
theorem claim_c9_constant_analysis (a b : Unit) :
    analyze_jwt_security a = analyze_jwt_security b ∧
    analyze_refresh_token_security a = analyze_refresh_token_security b ∧
    analyze_blacklist_security a = analyze_blacklist_security b :=
  ⟨rfl, rfl, rfl⟩

/-- Claim C10: in simulate_blacklist_performance every one of the 100
membership lookups is false for every blacklist size: each lookup key
"lookup-token-i" is at most 15 characters while every element of the
searched list is a 64-character SHA-256 hex digest (the hexdigest
length contract of the Python standard library is the hypothesis). -/
theorem claim_c10_blacklist_lookups_all_false (hexdigest : String → String)
    (hlen : ∀ str, (hexdigest str).length = 64) (numTokens i : Nat) (hi : i < 100) :
    lookupHit hexdigest numTokens i = false := by
  unfold lookupHit
  cases hcase : (blacklistHashes hexdigest numTokens).contains (lookupKey i) with
  | false => rfl
  | true =>
    exfalso
    have hmem : lookupKey i ∈ blacklistHashes hexdigest numTokens :=
      List.elem_iff.mp hcase
    unfold blacklistHashes at hmem
    obtain ⟨j, hj, hje⟩ := List.mem_map.mp hmem
    have h64 : (lookupKey i).length = 64 := by
      rw [← hje]
      exact hlen _
    have hshort : (lookupKey i).length ≤ 15 := by
      have hb : ∀ k, k < 100 → (lookupKey k).length ≤ 15 := by decide
      exact hb i hi
    omega

/-- Witness for claim C10 with a length-64 constant standing in for the
hexdigest contract: lookup 3 against a blacklist of size 5 misses. -/
theorem claim_c10_witness :
    lookupHit (fun _ => String.mk (List.replicate 64 'a')) 5 3 = false :=
  claim_c10_blacklist_lookups_all_false (fun _ => String.mk (List.replicate 64 'a'))
    (fun _ => rfl) 5 3 (by decide)
